import Mathlib

/-!
Shallow embedding of the NDK client (`src/index.ts`) and the NIP-46 remote
signer (`NDKNip46Signer`).  Pure data is carried by Lean structures; the
asynchronous delivery chain of a Subscription is modelled as a list of
messages processed in order by the literal translation of the handlers the
source attaches; a JS `Promise` is a three-state value that latches on the
first `resolve`/`reject` call.
-/

set_option autoImplicit false

namespace NDKSpec

/-! ## Events and identity keys -/

/-- An event as the dedup layer sees it: the signed payload fields plus the
information the identity key is derived from.  `replaceable` records whether
the event's kind is a replaceable kind. -/
structure NDKEvent where
  id : String
  kind : Nat
  pubkey : String
  created_at : Nat
  content : String
  sig : String
  dTag : Option String
  replaceable : Bool
  deriving Repr, DecidableEq

/-- Modelled from the spec: `events/index.js` (the `tagId` method) is not under
`src/`.  The spec says regular events are identified by content hash and
replaceable events by (kind, author[, distinguishing tag]); the identity key
abstracts the two cases. -/
def tagId (e : NDKEvent) : String :=
  if e.replaceable then
    toString e.kind ++ ":" ++ e.pubkey ++ ":" ++ e.dTag.getD ""
  else
    e.id

/-- Modelled from the spec: `events/dedup.js` is not under `src/`.  The spec's
merge rule for identity conflicts: the copy with the later timestamp wins;
ties are deterministic (the already-stored copy is kept). -/
def dedupEvent (existing incoming : NDKEvent) : NDKEvent :=
  if existing.created_at < incoming.created_at then incoming else existing

/-! ## Promises and subscription message traces -/

/-- The observable state of a JS `Promise`: it settles at most once. -/
inductive PromiseState (ε : Type) (α : Type) where
  | pending
  | resolved (value : α)
  | rejected (err : ε)
  deriving Repr, DecidableEq

/-- One message delivered by a Subscription to its listeners: an `event`
emission or the overall end-of-stored-events signal (`eose`). -/
inductive SubMsg where
  | event (e : NDKEvent)
  | eose
  deriving Repr, DecidableEq

/-- Subscription options: the only field the claims touch. -/
structure NDKSubscriptionOptions where
  closeOnEose : Bool
  deriving Repr, DecidableEq

/-- `{...opts, closeOnEose: true}` — the option spread both `fetchEvent` and
`fetchEvents` pass to `subscribe`, making the Subscription auto-closing. -/
def withCloseOnEose (opts : NDKSubscriptionOptions) : NDKSubscriptionOptions :=
  { opts with closeOnEose := true }

/-! ## Relay sets and `publish` -/

/-- A deduplicated group of relay endpoints. -/
structure NDKRelaySet where
  relayUrls : List String
  deriving Repr, DecidableEq

/-- The part of the client configuration `publish` consults. -/
structure NDKConfig where
  devWriteRelaySet : Option NDKRelaySet
  deriving Repr, DecidableEq

/-- The delegation `publish` performs: `relaySet.publish(event)`. -/
structure Delivery where
  target : NDKRelaySet
  event : NDKEvent
  deriving Repr, DecidableEq

/-- `NDK.publish(event, relaySet?)`: if no explicit relay set is given, use the
configured `devWriteRelaySet` if any (`this.devWriteRelaySet || ...`), else the
relay set computed from the event, then delegate delivery to the result.
`calc` stands for the imported `calculateRelaySetFromEvent`. -/
def publish (cfg : NDKConfig) (calcSet : NDKEvent → NDKRelaySet)
    (event : NDKEvent) (relaySet : Option NDKRelaySet) : Delivery :=
  let rs :=
    match relaySet with
    | some rs => rs
    | none =>
      match cfg.devWriteRelaySet with
      | some dev => dev
      | none => calcSet event
  ⟨rs, event⟩

/-! ## `assertSigner` -/

/-- What a signer implementation is (its constructor) — used to state that the
transport signer generated by `NDKNip46Signer` is a private-key signer. -/
inductive SignerImpl where
  | privateKeySigner
  | nip07Signer
  | nip46Signer
  deriving Repr, DecidableEq

/-- A configured signer capability, identified by its implementation and the
public key its `user()` reports. -/
structure LocalSigner where
  impl : SignerImpl
  pubkey : String
  deriving Repr, DecidableEq

/-- Observable actions `assertSigner` performs, in program order. -/
inductive ClientAction where
  | emitSignerRequired
  | throwSignerRequired
  deriving Repr, DecidableEq

/-- `NDK.assertSigner()`: with no signer, emit `signerRequired` and then throw
`Error('Signer required')`; with a signer, do nothing.  The first component is
the ordered trace of observable actions. -/
def assertSigner (signer : Option LocalSigner) :
    List ClientAction × Except String Unit :=
  match signer with
  | none =>
    ([ClientAction.emitSignerRequired, ClientAction.throwSignerRequired],
      Except.error "Signer required")
  | some _ => ([], Except.ok ())

/-! ## Users and the NIP-46 remote signer -/

/-- A user identity; the `npub` encoding determines the key. -/
structure NDKUser where
  npub : String
  deriving Repr, DecidableEq

/-- Modelled from the spec: `user/index.js` is not under `src/`.  `npub` is an
encoding of the hex public key; the encoding is modelled as a concrete
injective function. -/
def npubOf (hexpubkey : String) : String :=
  "npub1" ++ hexpubkey

/-- Modelled from the spec: inverse direction of the `npub` encoding
(`NDKUser.hexpubkey()`). -/
def hexpubkeyOf (user : NDKUser) : String :=
  user.npub.drop 5

/-- Parameters accepted by `NDK.getUser`. -/
structure GetUserParams where
  npub : Option String
  hexpubkey : Option String
  deriving Repr, DecidableEq

/-- `NDK.getUser(opts)` constructs an `NDKUser` from the identifying
parameter (the constructor itself lives in `user/index.js`; modelled from the
spec as pure construction from the given key). -/
def mkNDKUser (p : GetUserParams) : NDKUser :=
  match p.npub with
  | some n => ⟨n⟩
  | none => ⟨npubOf (p.hexpubkey.getD "")⟩

/-- `signer.user()`: the identity of the key the signer holds. -/
def signerUser (s : LocalSigner) : NDKUser :=
  ⟨npubOf s.pubkey⟩

/-- Modelled from the spec: `signers/private-key/index.js` is not under
`src/`.  `NDKPrivateKeySigner.generate()` draws a fresh private key; the
randomness drawn is made explicit as the `entropy` argument, and the public
key is derived from it. -/
def generateSigner (entropy : String) : LocalSigner :=
  ⟨SignerImpl.privateKeySigner, entropy⟩

/-- The state of an `NDKNip46Signer`: the remote signing identity and the
local transport signer. -/
structure NDKNip46Signer where
  remotePubkey : String
  localSigner : LocalSigner
  deriving Repr, DecidableEq

/-- The `NDKNip46Signer` constructor: keeps the given `localSigner` if one is
supplied and otherwise generates a fresh private-key signer for the transport
role. -/
def mkNip46Signer (remotePubkey : String) (localSigner : Option LocalSigner)
    (entropy : String) : NDKNip46Signer :=
  match localSigner with
  | none => ⟨remotePubkey, generateSigner entropy⟩
  | some s => ⟨remotePubkey, s⟩

/-- `NDKNip46Signer.user()`: returns `this.localSigner.user()`. -/
def nip46user (s : NDKNip46Signer) : NDKUser :=
  signerUser s.localSigner

/-! ## NIP-46 RPC responses and response handlers -/

/-- An RPC response as routed by `NDKNostrRpc`: a correlation id, a result
payload and an optional error field. -/
structure NDKRpcResponse where
  id : String
  result : String
  error : Option String
  deriving Repr, DecidableEq

/-- JS truthiness of the optional `error` field: `response.error` is truthy
exactly when the field is present and non-empty. -/
def errorTruthy (e : Option String) : Bool :=
  match e with
  | none => false
  | some s => decide (s ≠ "")

/-- The `response-<id>` handler installed by `NDKNip46Signer.blockUntilReady`:
`result === 'ack'` resolves with the user built (via `getUser`) from the LOCAL
signer's npub; anything else rejects with `response.error`. -/
def blockUntilReadyHandler (s : NDKNip46Signer) (response : NDKRpcResponse) :
    PromiseState (Option String) NDKUser :=
  let localUser := signerUser s.localSigner
  let user := mkNDKUser ⟨some localUser.npub, none⟩
  if response.result = "ack" then
    PromiseState.resolved user
  else
    PromiseState.rejected response.error

/-- The `response-<id>` handler installed by `NDKNip46Signer.sign`:
`if (!response.error)` resolve with `JSON.parse(response.result).sig`, else
reject with `response.error`.  `parseSig` stands for the platform
`JSON.parse(...).sig` extraction applied to the result payload. -/
def signHandler (parseSig : String → String) (response : NDKRpcResponse) :
    PromiseState String String :=
  if errorTruthy response.error = false then
    PromiseState.resolved (parseSig response.result)
  else
    PromiseState.rejected (response.error.getD "")

/-- One network operation observable at the RPC layer. -/
inductive NetworkOp where
  | rpcRequest (target : String) (method : String) (params : List String)
      (requestId : String)
  deriving Repr, DecidableEq

/-- `NDKNip46Signer.encrypt`: throws `Error('not implemented')` before any
network operation; the first component is the trace of network operations
performed. -/
def nip46encrypt (recipient : NDKUser) (value : String) :
    List NetworkOp × Except String String :=
  ([], Except.error "not implemented")

/-- `NDKNip46Signer.decrypt`: throws `Error('not implemented')` before any
network operation. -/
def nip46decrypt (sender : NDKUser) (value : String) :
    List NetworkOp × Except String String :=
  ([], Except.error "not implemented")

/-- The network trace of `NDKNip46Signer.sign`: one `sign_event` RPC request
to the remote key (shown for contrast with `nip46encrypt`/`nip46decrypt`,
which perform none). -/
def signNetworkOps (s : NDKNip46Signer) (serializedEvent connectId : String) :
    List NetworkOp :=
  [NetworkOp.rpcRequest s.remotePubkey "sign_event" [serializedEvent] connectId]

/-! ## The single-fulfillment completion handle of `NDKNostrRpc`

Modelled from the spec: `rpc.ts` (`NDKNostrRpc` and its `once('response-<id>')`
dispatch) is not under `src/`.  The spec: `sendRequest` returns a
single-fulfillment completion handle that resolves or rejects exactly once
when a response bearing the same correlation id is observed; once a handle is
fulfilled it is deregistered, so a second response with the same correlation
id is ignored, and a non-matching correlation id has no effect on the
handle. -/

/-- A pending RPC completion handle: its correlation id, whether its one-shot
handler is still registered, and the promise it settles. -/
structure PendingHandle (ε : Type) (α : Type) where
  id : String
  registered : Bool
  state : PromiseState ε α
  deriving Repr, DecidableEq

/-- Modelled from the spec: a freshly registered handle for correlation id
`i` — handler registered, promise pending. -/
def mkHandle (ε α : Type) (i : String) : PendingHandle ε α :=
  ⟨i, true, PromiseState.pending⟩

/-- Modelled from the spec: how one inbound response affects a handle.  A
deregistered handle is unaffected; a response with a non-matching correlation
id is ignored; the first matching response settles the promise through the
installed handler and deregisters the handle. -/
def handleStep {ε α : Type} (handler : NDKRpcResponse → PromiseState ε α)
    (h : PendingHandle ε α) (r : NDKRpcResponse) : PendingHandle ε α :=
  if h.registered = true ∧ r.id = h.id then
    ⟨h.id, false, handler r⟩
  else
    h

/-- Run a freshly registered handle for correlation id `i` over an inbound
response trace. -/
def runHandle {ε α : Type} (handler : NDKRpcResponse → PromiseState ε α)
    (i : String) (trace : List NDKRpcResponse) : PendingHandle ε α :=
  trace.foldl (handleStep handler) (mkHandle ε α i)

/-- The first response in a trace bearing the given correlation id. -/
def firstMatch : List NDKRpcResponse → String → Option NDKRpcResponse
  | [], _ => none
  | r :: rest, i => if r.id = i then some r else firstMatch rest i

/-! ## `fetchEvent` -/

/-- `NDK.fetchEvent`'s listeners: only an `event` handler is attached, and it
resolves the promise (a promise latches on its first settlement); there is no
`eose` or error handler. -/
def fetchEventHandle (st : PromiseState String NDKEvent) (m : SubMsg) :
    PromiseState String NDKEvent :=
  match m with
  | SubMsg.event e =>
    match st with
    | PromiseState.pending => PromiseState.resolved e
    | s => s
  | SubMsg.eose => st

/-- The promise `fetchEvent` returns, after the Subscription has delivered the
given message trace. -/
def fetchEventRun (trace : List SubMsg) : PromiseState String NDKEvent :=
  trace.foldl fetchEventHandle PromiseState.pending

/-- The first event delivered in a Subscription message trace. -/
def firstDelivered : List SubMsg → Option NDKEvent
  | [] => none
  | SubMsg.event e :: _ => some e
  | SubMsg.eose :: rest => firstDelivered rest

/-! ## `fetchEvents` -/

/-- Lookup in the insertion-ordered map `events` of `fetchEvents`
(a JS `Map`). -/
def mapGet : List (String × NDKEvent) → String → Option NDKEvent
  | [], _ => none
  | p :: rest, k => if p.1 = k then some p.2 else mapGet rest k

/-- Whether the map already holds the key (JS `Map.has`-like test backing
`Map.set`'s update-or-append behaviour). -/
def mapHasKey : List (String × NDKEvent) → String → Bool
  | [], _ => false
  | p :: rest, k => if p.1 = k then true else mapHasKey rest k

/-- Replace the value stored under an existing key, in place. -/
def mapSetExisting : List (String × NDKEvent) → String → NDKEvent →
    List (String × NDKEvent)
  | [], _, _ => []
  | p :: rest, k, v =>
    if p.1 = k then (k, v) :: mapSetExisting rest k v
    else p :: mapSetExisting rest k v

/-- JS `Map.set`: update the entry in place when the key exists, else append a
new entry (JS `Map`s preserve insertion order). -/
def mapSet (m : List (String × NDKEvent)) (k : String) (v : NDKEvent) :
    List (String × NDKEvent) :=
  if mapHasKey m k = true then mapSetExisting m k v else m ++ [(k, v)]

/-- The keys of the map, in insertion order. -/
def mapKeys (m : List (String × NDKEvent)) : List String :=
  m.map Prod.fst

/-- The values of the map, in insertion order — what
`new Set(events.values())` collects. -/
def mapValues (m : List (String × NDKEvent)) : List NDKEvent :=
  m.map Prod.snd

/-- The `event` handler of `NDK.fetchEvents`: look up the incoming event's
`tagId()`; if an event is already stored there, replace the incoming event by
`dedupEvent(existing, incoming)`; then store the (possibly merged) event under
its `tagId()`. -/
def fetchEventsStep (m : List (String × NDKEvent)) (e : NDKEvent) :
    List (String × NDKEvent) :=
  let merged :=
    match mapGet m (tagId e) with
    | some existing => dedupEvent existing e
    | none => e
  mapSet m (tagId merged) merged

/-- The accumulated `events` map after a list of `event` emissions. -/
def fetchEventsAccum (evs : List NDKEvent) : List (String × NDKEvent) :=
  evs.foldl fetchEventsStep []

/-- The state of a running `fetchEvents` call: the accumulated map and the
promise it returned. -/
structure FetchEventsRun where
  events : List (String × NDKEvent)
  result : PromiseState String (List NDKEvent)
  deriving Repr, DecidableEq

/-- `NDK.fetchEvents`'s listeners: the `event` handler accumulates with
dedup-merge; the `eose` handler resolves with the collected values (the
promise latches on its first settlement). -/
def fetchEventsHandle (st : FetchEventsRun) (m : SubMsg) : FetchEventsRun :=
  match m with
  | SubMsg.event e => { st with events := fetchEventsStep st.events e }
  | SubMsg.eose =>
    match st.result with
    | PromiseState.pending =>
      { st with result := PromiseState.resolved (mapValues st.events) }
    | _ => st

/-- The state of a `fetchEvents` call after the Subscription has delivered the
given message trace. -/
def fetchEventsRun (trace : List SubMsg) : FetchEventsRun :=
  trace.foldl fetchEventsHandle ⟨[], PromiseState.pending⟩

/-- Merge a group of same-identity events with the dedup rule, in arrival
order (what the repeated `dedupEvent` applications in `fetchEvents` compute
for one identity key). -/
def mergeGroup : List NDKEvent → Option NDKEvent
  | [] => none
  | e :: rest => some (rest.foldl dedupEvent e)

/-- The events of a delivery list that carry the given identity key, in
arrival order. -/
def identityGroup : List NDKEvent → String → List NDKEvent
  | [], _ => []
  | e :: rest, k =>
    if tagId e = k then e :: identityGroup rest k else identityGroup rest k

/-- The event actually stored by the `event` handler of `fetchEvents`: the
incoming event, merged with the already-stored copy of its identity when one
exists. -/
def mergedEvent (m : List (String × NDKEvent)) (e : NDKEvent) : NDKEvent :=
  match mapGet m (tagId e) with
  | some existing => dedupEvent existing e
  | none => e

/-- Merging a group into an optional already-stored event: what the repeated
lookups and `dedupEvent` calls compute for one identity key. -/
def mergeInto (o : Option NDKEvent) (l : List NDKEvent) : Option NDKEvent :=
  match o with
  | none => mergeGroup l
  | some x => some (l.foldl dedupEvent x)

/-- Every entry of the map is stored under the identity key of its value. -/
def mapWellKeyed (m : List (String × NDKEvent)) : Prop :=
  ∀ (k : String) (v : NDKEvent), mapGet m k = some v → tagId v = k

/-! ## Helper lemmas -/

theorem fetchEventsStep_eq (m : List (String × NDKEvent)) (e : NDKEvent) :
    fetchEventsStep m e = mapSet m (tagId (mergedEvent m e)) (mergedEvent m e) :=
  rfl

theorem dedup_cases (a b : NDKEvent) :
    dedupEvent a b = a ∨ dedupEvent a b = b := by
  unfold dedupEvent
  split
  · exact Or.inr rfl
  · exact Or.inl rfl

theorem le_dedup_left (a b : NDKEvent) :
    a.created_at ≤ (dedupEvent a b).created_at := by
  unfold dedupEvent
  split <;> omega

theorem le_dedup_right (a b : NDKEvent) :
    b.created_at ≤ (dedupEvent a b).created_at := by
  unfold dedupEvent
  split <;> omega

theorem mapGet_mapSetExisting_self (m : List (String × NDKEvent)) (k : String)
    (v : NDKEvent) (h : mapHasKey m k = true) :
    mapGet (mapSetExisting m k v) k = some v := by
  induction m with
  | nil => simp [mapHasKey] at h
  | cons p rest ih =>
    by_cases hp : p.1 = k
    · simp [mapSetExisting, hp, mapGet]
    · have hrest : mapHasKey rest k = true := by
        simpa [mapHasKey, hp] using h
      simp [mapSetExisting, hp, mapGet, ih hrest]

theorem mapGet_mapSetExisting_ne (m : List (String × NDKEvent)) (k : String)
    (v : NDKEvent) (k' : String) (h : k' ≠ k) :
    mapGet (mapSetExisting m k v) k' = mapGet m k' := by
  induction m with
  | nil => rfl
  | cons p rest ih =>
    by_cases hp : p.1 = k
    · have : k ≠ k' := fun hh => h hh.symm
      simp [mapSetExisting, hp, mapGet, this, ih]
    · by_cases hp' : p.1 = k'
      · simp [mapSetExisting, hp, mapGet, hp', h]
      · simp [mapSetExisting, hp, mapGet, hp', ih]

theorem mapGet_append_self (m : List (String × NDKEvent)) (k : String)
    (v : NDKEvent) (h : mapHasKey m k = false) :
    mapGet (m ++ [(k, v)]) k = some v := by
  induction m with
  | nil => simp [mapGet]
  | cons p rest ih =>
    have hp : p.1 ≠ k := by
      intro hh
      simp [mapHasKey, hh] at h
    have hrest : mapHasKey rest k = false := by
      simpa [mapHasKey, hp] using h
    simp [mapGet, hp, ih hrest]

theorem mapGet_append_ne (m : List (String × NDKEvent)) (k : String)
    (v : NDKEvent) (k' : String) (h : k' ≠ k) :
    mapGet (m ++ [(k, v)]) k' = mapGet m k' := by
  induction m with
  | nil =>
    have : k ≠ k' := fun hh => h hh.symm
    simp [mapGet, this]
  | cons p rest ih =>
    by_cases hp : p.1 = k'
    · simp [mapGet, hp]
    · simp [mapGet, hp, ih]

theorem mapGet_mapSet_self (m : List (String × NDKEvent)) (k : String)
    (v : NDKEvent) : mapGet (mapSet m k v) k = some v := by
  unfold mapSet
  by_cases h : mapHasKey m k = true
  · rw [if_pos h]
    exact mapGet_mapSetExisting_self m k v h
  · rw [if_neg h]
    exact mapGet_append_self m k v (by simpa using h)

theorem mapGet_mapSet_ne (m : List (String × NDKEvent)) (k : String)
    (v : NDKEvent) (k' : String) (h : k' ≠ k) :
    mapGet (mapSet m k v) k' = mapGet m k' := by
  unfold mapSet
  by_cases hk : mapHasKey m k = true
  · rw [if_pos hk]
    exact mapGet_mapSetExisting_ne m k v k' h
  · rw [if_neg hk]
    exact mapGet_append_ne m k v k' h

theorem mapKeys_mapSetExisting (m : List (String × NDKEvent)) (k : String)
    (v : NDKEvent) : mapKeys (mapSetExisting m k v) = mapKeys m := by
  induction m with
  | nil => rfl
  | cons p rest ih =>
    by_cases hp : p.1 = k
    · have h1 : mapSetExisting (p :: rest) k v = (k, v) :: mapSetExisting rest k v := by
        simp [mapSetExisting, hp]
      rw [h1]
      show k :: mapKeys (mapSetExisting rest k v) = p.1 :: mapKeys rest
      rw [ih, hp]
    · have h1 : mapSetExisting (p :: rest) k v = p :: mapSetExisting rest k v := by
        simp [mapSetExisting, hp]
      rw [h1]
      show p.1 :: mapKeys (mapSetExisting rest k v) = p.1 :: mapKeys rest
      rw [ih]

theorem mapHasKey_iff_mem (m : List (String × NDKEvent)) (k : String) :
    mapHasKey m k = true ↔ k ∈ mapKeys m := by
  induction m with
  | nil => simp [mapHasKey, mapKeys]
  | cons p rest ih =>
    have hkeys : mapKeys (p :: rest) = p.1 :: mapKeys rest := rfl
    rw [hkeys]
    by_cases hp : p.1 = k
    · constructor
      · intro _
        exact hp ▸ List.mem_cons_self p.1 (mapKeys rest)
      · intro _
        simp [mapHasKey, hp]
    · have h1 : mapHasKey (p :: rest) k = mapHasKey rest k := by
        simp [mapHasKey, hp]
      rw [h1, ih]
      constructor
      · intro hh
        exact List.mem_cons_of_mem _ hh
      · intro hh
        rcases List.mem_cons.mp hh with hh | hh
        · exact absurd hh.symm hp
        · exact hh

theorem mapKeys_mapSet (m : List (String × NDKEvent)) (k : String)
    (v : NDKEvent) :
    mapKeys (mapSet m k v) =
      if mapHasKey m k = true then mapKeys m else mapKeys m ++ [k] := by
  unfold mapSet
  by_cases h : mapHasKey m k = true
  · rw [if_pos h, if_pos h]
    exact mapKeys_mapSetExisting m k v
  · rw [if_neg h, if_neg h]
    simp [mapKeys]

theorem mergeInto_nil (o : Option NDKEvent) : mergeInto o [] = o := by
  cases o <;> rfl

theorem mergeInto_none_cons (e : NDKEvent) (g : List NDKEvent) :
    mergeInto none (e :: g) = mergeInto (some e) g := by
  simp [mergeInto, mergeGroup]

theorem mergeInto_some_cons (x e : NDKEvent) (g : List NDKEvent) :
    mergeInto (some x) (e :: g) = mergeInto (some (dedupEvent x e)) g := by
  simp [mergeInto]

theorem mergedEvent_tagId (m : List (String × NDKEvent)) (e : NDKEvent)
    (hm : mapWellKeyed m) : tagId (mergedEvent m e) = tagId e := by
  cases hget : mapGet m (tagId e) with
  | none => simp [mergedEvent, hget]
  | some x =>
    have hx := hm _ _ hget
    have hme : mergedEvent m e = dedupEvent x e := by
      simp [mergedEvent, hget]
    rw [hme]
    cases dedup_cases x e with
    | inl h => rw [h]; exact hx
    | inr h => rw [h]

theorem mapWellKeyed_nil : mapWellKeyed [] := by
  intro k v h
  simp [mapGet] at h

theorem mapWellKeyed_step (m : List (String × NDKEvent)) (e : NDKEvent)
    (hm : mapWellKeyed m) : mapWellKeyed (fetchEventsStep m e) := by
  intro k v hget
  rw [fetchEventsStep_eq] at hget
  by_cases hk : k = tagId (mergedEvent m e)
  · rw [hk, mapGet_mapSet_self] at hget
    have hv : v = mergedEvent m e := by
      injection hget with hh
      exact hh.symm
    rw [hv, hk]
  · rw [mapGet_mapSet_ne _ _ _ _ hk] at hget
    exact hm _ _ hget

/-- The central accumulation lemma: after folding any delivery list into a
well-keyed map, the entry under `k` is the arrival-order dedup-merge of the
events with identity `k`, merged into whatever the map already held. -/
theorem mapGet_foldl_fetchEventsStep :
    ∀ (evs : List NDKEvent) (m : List (String × NDKEvent)) (k : String),
      mapWellKeyed m →
      mapGet (evs.foldl fetchEventsStep m) k =
        mergeInto (mapGet m k) (identityGroup evs k) := by
  intro evs
  induction evs with
  | nil =>
    intro m k hm
    simp [identityGroup, mergeInto_nil]
  | cons e rest ih =>
    intro m k hm
    have hstep : mapWellKeyed (fetchEventsStep m e) := mapWellKeyed_step m e hm
    have hkey : tagId (mergedEvent m e) = tagId e := mergedEvent_tagId m e hm
    rw [List.foldl_cons, ih (fetchEventsStep m e) k hstep]
    by_cases hk : tagId e = k
    · have h1 : mapGet (fetchEventsStep m e) k = some (mergedEvent m e) := by
        rw [fetchEventsStep_eq]
        have : tagId (mergedEvent m e) = k := by rw [hkey, hk]
        rw [this]
        exact mapGet_mapSet_self m k (mergedEvent m e)
      have h2 : identityGroup (e :: rest) k = e :: identityGroup rest k := by
        simp [identityGroup, hk]
      rw [h1, h2]
      cases hget : mapGet m k with
      | none =>
        have hme : mergedEvent m e = e := by
          simp [mergedEvent, hk, hget]
        rw [hme, mergeInto_none_cons]
      | some x =>
        have hme : mergedEvent m e = dedupEvent x e := by
          simp [mergedEvent, hk, hget]
        rw [hme, mergeInto_some_cons]
    · have h1 : mapGet (fetchEventsStep m e) k = mapGet m k := by
        rw [fetchEventsStep_eq]
        refine mapGet_mapSet_ne m _ _ k ?_
        rw [hkey]
        exact fun hh => hk hh.symm
      have h2 : identityGroup (e :: rest) k = identityGroup rest k := by
        simp [identityGroup, hk]
      rw [h1, h2]

theorem mapGet_fetchEventsAccum (evs : List NDKEvent) (k : String) :
    mapGet (fetchEventsAccum evs) k = mergeGroup (identityGroup evs k) := by
  have h := mapGet_foldl_fetchEventsStep evs [] k mapWellKeyed_nil
  simpa [fetchEventsAccum, mapGet, mergeInto] using h

theorem mapWellKeyed_accum (evs : List NDKEvent) :
    mapWellKeyed (fetchEventsAccum evs) := by
  have hgen : ∀ (l : List NDKEvent) (m : List (String × NDKEvent)),
      mapWellKeyed m → mapWellKeyed (l.foldl fetchEventsStep m) := by
    intro l
    induction l with
    | nil => intro m hm; exact hm
    | cons e rest ih =>
      intro m hm
      rw [List.foldl_cons]
      exact ih _ (mapWellKeyed_step m e hm)
  exact hgen evs [] mapWellKeyed_nil

theorem mapKeys_nodup_step (m : List (String × NDKEvent)) (e : NDKEvent)
    (h : (mapKeys m).Nodup) : (mapKeys (fetchEventsStep m e)).Nodup := by
  rw [fetchEventsStep_eq, mapKeys_mapSet]
  by_cases hk : mapHasKey m (tagId (mergedEvent m e)) = true
  · rw [if_pos hk]
    exact h
  · rw [if_neg hk]
    have hmem : tagId (mergedEvent m e) ∉ mapKeys m := by
      intro hmem
      exact hk ((mapHasKey_iff_mem m _).mpr hmem)
    simp [List.nodup_append, h, hmem]

theorem mapKeys_nodup_accum (evs : List NDKEvent) :
    (mapKeys (fetchEventsAccum evs)).Nodup := by
  have hgen : ∀ (l : List NDKEvent) (m : List (String × NDKEvent)),
      (mapKeys m).Nodup → (mapKeys (l.foldl fetchEventsStep m)).Nodup := by
    intro l
    induction l with
    | nil => intro m hm; exact hm
    | cons e rest ih =>
      intro m hm
      rw [List.foldl_cons]
      exact ih _ (mapKeys_nodup_step m e hm)
  exact hgen evs [] (by simp [mapKeys])

theorem mem_identityGroup (evs : List NDKEvent) (k : String) (e : NDKEvent) :
    e ∈ identityGroup evs k ↔ e ∈ evs ∧ tagId e = k := by
  induction evs with
  | nil => simp [identityGroup]
  | cons x rest ih =>
    by_cases hx : tagId x = k
    · simp only [identityGroup, if_pos hx, List.mem_cons, ih]
      constructor
      · intro hh
        rcases hh with hh | hh
        · exact ⟨Or.inl hh, hh ▸ hx⟩
        · exact ⟨Or.inr hh.1, hh.2⟩
      · intro hh
        rcases hh.1 with h1 | h1
        · exact Or.inl h1
        · exact Or.inr ⟨h1, hh.2⟩
    · simp only [identityGroup, if_neg hx, List.mem_cons, ih]
      constructor
      · intro hh
        exact ⟨Or.inr hh.1, hh.2⟩
      · intro hh
        rcases hh.1 with h1 | h1
        · exact absurd (h1 ▸ hh.2) hx
        · exact ⟨h1, hh.2⟩

theorem foldl_dedup_mem :
    ∀ (l : List NDKEvent) (x : NDKEvent),
      l.foldl dedupEvent x = x ∨ l.foldl dedupEvent x ∈ l := by
  intro l
  induction l with
  | nil => intro x; exact Or.inl rfl
  | cons e t ih =>
    intro x
    rw [List.foldl_cons]
    rcases ih (dedupEvent x e) with h | h
    · rcases dedup_cases x e with h2 | h2
      · rw [h, h2]
        exact Or.inl rfl
      · rw [h, h2]
        exact Or.inr (List.mem_cons_self e t)
    · exact Or.inr (List.mem_cons_of_mem e h)

theorem foldl_dedup_le :
    ∀ (l : List NDKEvent) (x y : NDKEvent),
      y = x ∨ y ∈ l →
      y.created_at ≤ (l.foldl dedupEvent x).created_at := by
  intro l
  induction l with
  | nil =>
    intro x y h
    rcases h with h | h
    · simp [h]
    · cases h
  | cons e t ih =>
    intro x y h
    rw [List.foldl_cons]
    rcases h with h | h
    · rw [h]
      exact Nat.le_trans (le_dedup_left x e) (ih (dedupEvent x e) _ (Or.inl rfl))
    · rcases List.mem_cons.mp h with h | h
      · rw [h]
        exact Nat.le_trans (le_dedup_right x e) (ih (dedupEvent x e) _ (Or.inl rfl))
      · exact ih (dedupEvent x e) y (Or.inr h)

/-- The merge of a group is one of its members and carries its maximal
timestamp: the latest-timestamp copy wins. -/
theorem mergeGroup_spec (l : List NDKEvent) (v : NDKEvent)
    (h : mergeGroup l = some v) :
    v ∈ l ∧ ∀ e ∈ l, e.created_at ≤ v.created_at := by
  cases l with
  | nil => cases h
  | cons x rest =>
    have hv : v = rest.foldl dedupEvent x := by
      have : some (rest.foldl dedupEvent x) = some v := h
      injection this with hh
      exact hh.symm
    constructor
    · rcases foldl_dedup_mem rest x with h1 | h1
      · rw [hv, h1]
        exact List.mem_cons_self x rest
      · rw [hv]
        exact List.mem_cons_of_mem x h1
    · intro e he
      rw [hv]
      rcases List.mem_cons.mp he with h1 | h1
      · exact foldl_dedup_le rest x e (Or.inl h1)
      · exact foldl_dedup_le rest x e (Or.inr h1)

theorem fetchEventsRun_events_map :
    ∀ (evs : List NDKEvent) (st : FetchEventsRun),
      (evs.map SubMsg.event).foldl fetchEventsHandle st =
        ⟨evs.foldl fetchEventsStep st.events, st.result⟩ := by
  intro evs
  induction evs with
  | nil => intro st; rfl
  | cons e rest ih =>
    intro st
    rw [List.map_cons, List.foldl_cons]
    exact ih { st with events := fetchEventsStep st.events e }

theorem foldl_fetchEventHandle_resolved (trace : List SubMsg) (e : NDKEvent) :
    trace.foldl fetchEventHandle (PromiseState.resolved e) =
      PromiseState.resolved e := by
  induction trace with
  | nil => rfl
  | cons m rest ih => cases m <;> simpa [fetchEventHandle] using ih

/-- The promise of `fetchEvent` settles exactly on the first delivered event
and never otherwise. -/
theorem fetchEventRun_eq (trace : List SubMsg) :
    fetchEventRun trace =
      match firstDelivered trace with
      | some e => PromiseState.resolved e
      | none => PromiseState.pending := by
  induction trace with
  | nil => rfl
  | cons m rest ih =>
    cases m with
    | event e =>
      simp [fetchEventRun, fetchEventHandle, firstDelivered,
        foldl_fetchEventHandle_resolved]
    | eose =>
      simpa [fetchEventRun, fetchEventHandle, firstDelivered] using ih

theorem firstDelivered_append (t1 t2 : List SubMsg) :
    firstDelivered (t1 ++ t2) =
      match firstDelivered t1 with
      | some e => some e
      | none => firstDelivered t2 := by
  induction t1 with
  | nil => rfl
  | cons m rest ih => cases m <;> simp [firstDelivered, ih]

theorem foldl_handleStep_deregistered {ε α : Type}
    (handler : NDKRpcResponse → PromiseState ε α)
    (trace : List NDKRpcResponse) (h : PendingHandle ε α)
    (hreg : h.registered = false) :
    trace.foldl (handleStep handler) h = h := by
  induction trace with
  | nil => rfl
  | cons r rest ih => simpa [handleStep, hreg] using ih

/-- A freshly registered handle run over a trace is settled by the first
response bearing its correlation id and is unaffected by everything else. -/
theorem foldl_handleStep_pending {ε α : Type}
    (handler : NDKRpcResponse → PromiseState ε α) (i : String)
    (trace : List NDKRpcResponse) :
    trace.foldl (handleStep handler) (mkHandle ε α i) =
      match firstMatch trace i with
      | none => mkHandle ε α i
      | some r => ⟨i, false, handler r⟩ := by
  induction trace with
  | nil => rfl
  | cons r rest ih =>
    by_cases hid : r.id = i
    · have hdereg :
          rest.foldl (handleStep handler)
            (⟨i, false, handler r⟩ : PendingHandle ε α) =
            ⟨i, false, handler r⟩ :=
        foldl_handleStep_deregistered handler rest _ rfl
      simp [handleStep, mkHandle, hid, firstMatch, hdereg]
    · simpa [handleStep, mkHandle, hid, firstMatch] using ih

/-! ## Claim theorems -/

/-- Claim C6: `fetchEvent` runs an auto-closing Subscription
(`closeOnEose: true` is forced onto the options) and its promise resolves with
the first event delivered from any relay — later deliveries are never merged
into or substituted for the result — and stays pending when nothing is
delivered. -/
theorem fetchEvent_first_arrival :
    (∀ opts : NDKSubscriptionOptions, (withCloseOnEose opts).closeOnEose = true) ∧
    ∀ trace : List SubMsg,
      fetchEventRun trace =
        match firstDelivered trace with
        | some e => PromiseState.resolved e
        | none => PromiseState.pending :=
  ⟨fun _ => rfl, fetchEventRun_eq⟩

/-- Claim C9: when the Subscription reaches overall stream-end having
delivered no event, the promise returned by `fetchEvent` is still pending —
there is no stream-end or error path out of the wait, so it never resolves
and never rejects. -/
theorem fetchEvent_no_event_never_settles :
    ∀ trace : List SubMsg, firstDelivered trace = none →
      fetchEventRun (trace ++ [SubMsg.eose]) = PromiseState.pending := by
  intro trace h
  rw [fetchEventRun_eq, firstDelivered_append, h]
  rfl

/-- Witness for C9: an empty delivery followed by stream-end leaves the
promise pending. -/
theorem fetchEvent_no_event_never_settles_witness :
    fetchEventRun ([] ++ [SubMsg.eose]) = PromiseState.pending :=
  fetchEvent_no_event_never_settles [] rfl

/-- Claim C4: when the `connect` handshake response carries
`result = "ack"`, `blockUntilReady` resolves with the user derived from the
LOCAL transport key (the local signer's public key); the resolved value does
not depend on the remote signing identity `remotePubkey`. -/
theorem blockUntilReady_ack_resolves_local_user :
    ∀ (s : NDKNip46Signer) (response : NDKRpcResponse),
      response.result = "ack" →
        blockUntilReadyHandler s response =
          PromiseState.resolved ⟨npubOf s.localSigner.pubkey⟩ ∧
        ∀ r : String,
          blockUntilReadyHandler { s with remotePubkey := r } response =
            blockUntilReadyHandler s response := by
  intro s response h
  constructor
  · simp [blockUntilReadyHandler, h, signerUser, mkNDKUser]
  · intro r; rfl

/-- Witness for C4: a concrete `ack` response resolves with the local
transport identity, not the remote one. -/
theorem blockUntilReady_ack_resolves_local_user_witness :
    blockUntilReadyHandler ⟨"remotekey", ⟨SignerImpl.privateKeySigner, "localkey"⟩⟩
        ⟨"c9", "ack", none⟩ =
      PromiseState.resolved ⟨npubOf "localkey"⟩ :=
  (blockUntilReady_ack_resolves_local_user
    ⟨"remotekey", ⟨SignerImpl.privateKeySigner, "localkey"⟩⟩
    ⟨"c9", "ack", none⟩ rfl).1

/-- Claim C7: a pending RPC completion handle is fulfilled at most once: run
over any inbound trace, it is settled by the handler applied to the FIRST
response bearing its correlation id and is then deregistered; every later
same-id response and every response with a different correlation id leave it
unchanged, and with no matching response it stays registered and pending. -/
theorem rpc_handle_single_fulfillment :
    ∀ (ε α : Type) (handler : NDKRpcResponse → PromiseState ε α)
      (i : String) (trace : List NDKRpcResponse),
      runHandle handler i trace =
        match firstMatch trace i with
        | none => mkHandle ε α i
        | some r => ⟨i, false, handler r⟩ := by
  intro ε α handler i trace
  exact foldl_handleStep_pending handler i trace

/-- Counterexample for C3 as stated: a response that does carry an `error`
field, with the empty string as its value, is treated as error-free by
`if (!response.error)` — the call RESOLVES with a signature instead of
rejecting. -/
theorem sign_error_field_counterexample :
    (NDKRpcResponse.mk "c1" "res" (some "")).error ≠ none ∧
    signHandler (fun _ => "sigval") ⟨"c1", "res", some ""⟩ =
      PromiseState.resolved "sigval" :=
  ⟨by simp, rfl⟩

/-- Claim C3 (amended): if the first response matching the request's
correlation id carries a NON-EMPTY error field then the signing call rejects
with that error and never resolves with a signature; if its error field is
absent or empty the call resolves with the signature string extracted from
the result payload. -/
theorem sign_response_error_handling :
    ∀ (parseSig : String → String) (i : String)
      (trace : List NDKRpcResponse) (r : NDKRpcResponse),
      firstMatch trace i = some r →
        (∀ s : String, r.error = some s → s ≠ "" →
          (runHandle (signHandler parseSig) i trace).state =
            PromiseState.rejected s) ∧
        (errorTruthy r.error = false →
          (runHandle (signHandler parseSig) i trace).state =
            PromiseState.resolved (parseSig r.result)) := by
  intro parseSig i trace r hfirst
  have hstate : (runHandle (signHandler parseSig) i trace).state =
      signHandler parseSig r := by
    rw [runHandle, foldl_handleStep_pending, hfirst]
  constructor
  · intro s hs hne
    rw [hstate]
    simp [signHandler, errorTruthy, hs, hne]
  · intro herr
    rw [hstate]
    simp [signHandler, herr]

/-- Witness for C3 (amended): a concrete matching response with a non-empty
error rejects with exactly that error. -/
theorem sign_response_error_handling_witness :
    (runHandle (signHandler (fun s => s)) "a"
        [⟨"a", "res", some "boom"⟩]).state =
      PromiseState.rejected "boom" :=
  (sign_response_error_handling (fun s => s) "a" [⟨"a", "res", some "boom"⟩]
    ⟨"a", "res", some "boom"⟩ (by simp [firstMatch])).1 "boom" rfl (by simp)

/-- Claim C1: `fetchEvents` runs an auto-closing Subscription, accumulates
events keyed by their identity key with dedup-merge on repeated identities,
stays pending while the stream is still open, and resolves with the
accumulated collection exactly at overall stream-end; the collection has
exactly one entry per observed identity (keys are pairwise distinct), the
entry under each identity key is the dedup-merge of all its duplicates, and
it is one of those duplicates carrying their maximal timestamp (latest
timestamp wins). -/
theorem fetchEvents_dedup_convergence :
    ∀ evs : List NDKEvent,
      (∀ opts : NDKSubscriptionOptions,
        (withCloseOnEose opts).closeOnEose = true) ∧
      fetchEventsRun (evs.map SubMsg.event) =
        ⟨fetchEventsAccum evs, PromiseState.pending⟩ ∧
      fetchEventsRun (evs.map SubMsg.event ++ [SubMsg.eose]) =
        ⟨fetchEventsAccum evs,
          PromiseState.resolved (mapValues (fetchEventsAccum evs))⟩ ∧
      (mapKeys (fetchEventsAccum evs)).Nodup ∧
      (∀ k : String,
        mapGet (fetchEventsAccum evs) k = mergeGroup (identityGroup evs k)) ∧
      (∀ (k : String) (v : NDKEvent),
        mapGet (fetchEventsAccum evs) k = some v →
          v ∈ evs ∧ tagId v = k ∧
          ∀ e ∈ evs, tagId e = k → e.created_at ≤ v.created_at) := by
  intro evs
  have hmap : fetchEventsRun (evs.map SubMsg.event) =
      ⟨fetchEventsAccum evs, PromiseState.pending⟩ :=
    fetchEventsRun_events_map evs ⟨[], PromiseState.pending⟩
  refine ⟨fun _ => rfl, hmap, ?_, mapKeys_nodup_accum evs,
    mapGet_fetchEventsAccum evs, ?_⟩
  · have h1 : fetchEventsRun (evs.map SubMsg.event ++ [SubMsg.eose]) =
        fetchEventsHandle (fetchEventsRun (evs.map SubMsg.event)) SubMsg.eose := by
      simp [fetchEventsRun, List.foldl_append]
    rw [h1, hmap]
    rfl
  · intro k v hget
    have hmerge : mergeGroup (identityGroup evs k) = some v := by
      rw [← mapGet_fetchEventsAccum evs k]
      exact hget
    have hspec := mergeGroup_spec _ v hmerge
    have hv : v ∈ evs ∧ tagId v = k := (mem_identityGroup evs k v).mp hspec.1
    refine ⟨hv.1, hv.2, ?_⟩
    intro e he hk
    exact hspec.2 e ((mem_identityGroup evs k e).mpr ⟨he, hk⟩)

/-- A replaceable event as delivered by relay A. -/
def evA : NDKEvent :=
  ⟨"idA", 30023, "author", 1, "older content", "sigA", some "d", true⟩

/-- A copy of the same replaceable identity from relay B, with a later
timestamp. -/
def evB : NDKEvent :=
  ⟨"idB", 30023, "author", 2, "newer content", "sigB", some "d", true⟩

/-- Witness for C1: two copies of one replaceable identity arrive; the single
stored entry is relay B's later copy, a member of the delivery list with the
identity key of both and a timestamp at least relay A's. -/
theorem fetchEvents_dedup_convergence_witness :
    evB ∈ [evA, evB] ∧ tagId evB = tagId evA ∧
      evA.created_at ≤ evB.created_at := by
  have h := (fetchEvents_dedup_convergence [evA, evB]).2.2.2.2.2 (tagId evA) evB
    (by decide)
  exact ⟨h.1, h.2.1, h.2.2 evA (by decide) rfl⟩

/-- Claim C2: `publish` resolves the effective RelaySet with priority
explicit argument first, then the configured dev-override set, then the set
computed from the event, and delegates delivery of the exact event to the
resolved set. -/
theorem publish_relay_set_priority :
    ∀ (cfg : NDKConfig) (calcSet : NDKEvent → NDKRelaySet) (event : NDKEvent),
      (∀ rs : NDKRelaySet, publish cfg calcSet event (some rs) = ⟨rs, event⟩) ∧
      (∀ dev : NDKRelaySet, cfg.devWriteRelaySet = some dev →
        publish cfg calcSet event none = ⟨dev, event⟩) ∧
      (cfg.devWriteRelaySet = none →
        publish cfg calcSet event none = ⟨calcSet event, event⟩) := by
  intro cfg calcSet event
  refine ⟨fun rs => rfl, fun dev hdev => ?_, fun hnone => ?_⟩
  · simp [publish, hdev]
  · simp [publish, hnone]

/-- Witness for C2: with a dev-override configured and no explicit argument,
`publish` delivers to the dev-override set. -/
theorem publish_relay_set_priority_witness :
    publish ⟨some ⟨["wss://dev"]⟩⟩ (fun _ => ⟨["wss://calc"]⟩)
        ⟨"i", 1, "p", 0, "c", "s", none, false⟩ none =
      ⟨⟨["wss://dev"]⟩, ⟨"i", 1, "p", 0, "c", "s", none, false⟩⟩ :=
  (publish_relay_set_priority ⟨some ⟨["wss://dev"]⟩⟩ (fun _ => ⟨["wss://calc"]⟩)
    ⟨"i", 1, "p", 0, "c", "s", none, false⟩).2.1 ⟨["wss://dev"]⟩ rfl

/-- Claim C5: `assertSigner` with no signer configured emits `signerRequired`
strictly before failing fatally (the emit is the first action of the trace and
the throw the second); with a signer configured it neither emits nor fails. -/
theorem assertSigner_emits_before_failing :
    assertSigner none =
      ([ClientAction.emitSignerRequired, ClientAction.throwSignerRequired],
        Except.error "Signer required") ∧
    ∀ s : LocalSigner, assertSigner (some s) = ([], Except.ok ()) := by
  exact ⟨rfl, fun s => rfl⟩

/-- Claim C8: the remote signer's `encrypt` and `decrypt` fail immediately
and explicitly with a not-implemented error and perform no network operation
(empty network trace), while `sign` does go to the network. -/
theorem nip46_encrypt_decrypt_unimplemented :
    ∀ (recipient sender : NDKUser) (value : String),
      nip46encrypt recipient value = ([], Except.error "not implemented") ∧
      nip46decrypt sender value = ([], Except.error "not implemented") := by
  intro recipient sender value
  exact ⟨rfl, rfl⟩

/-- Claim C10: `NDKNip46Signer.user()` is the local transport signer's user
and does not depend on `remotePubkey`; the constructor keeps a supplied local
signer and otherwise generates a fresh private-key signer for the transport
role. -/
theorem nip46_user_is_local_signer :
    (∀ s : NDKNip46Signer, nip46user s = signerUser s.localSigner) ∧
    (∀ (s : NDKNip46Signer) (r : String),
      nip46user { s with remotePubkey := r } = nip46user s) ∧
    (∀ (remotePubkey entropy : String),
      mkNip46Signer remotePubkey none entropy =
        ⟨remotePubkey, generateSigner entropy⟩ ∧
      (generateSigner entropy).impl = SignerImpl.privateKeySigner) ∧
    (∀ (remotePubkey entropy : String) (sgn : LocalSigner),
      (mkNip46Signer remotePubkey (some sgn) entropy).localSigner = sgn) := by
  exact ⟨fun s => rfl, fun s r => rfl,
    fun remotePubkey entropy => ⟨rfl, rfl⟩,
    fun remotePubkey entropy sgn => rfl⟩

end NDKSpec
